import Mathlib

/-!
Verification of the sumkin revisioned key-value backend.

This file gives a shallow embedding of the core of the repository
(src/sqlite.rs and src/traits.rs): the append-only log table, the
SQLite LIKE matching used by the visibility query (sql::LIST_SQL),
the put/delete mutation protocol and the aggregate queries, together
with theorems settling the specification claims about them.

Modelling notes, tied to the source:
- A store is the list of rows of the sumkin table in insertion order.
- The rowid assigned by INTEGER PRIMARY KEY AUTOINCREMENT on this
  append-only table (no row is ever updated or removed) is
  MAX(id) + 1, i.e. one more than the store's current revision;
  last_insert_rowid returns exactly that id (insert_with_tx).
- CURRENT_REVISION_SQL is SELECT MAX(rkv.id); on the empty table the
  NULL decodes as 0 (the repository's own test asserts this).
- The LIKE operator of SQLite is modelled faithfully: percent matches
  any sequence of characters, underscore any single character, and
  ordinary characters compare case-insensitively on ASCII letters.
- Byte strings (BLOB values) are modelled as lists of naturals.
-/

namespace Sumkin

/-- A row of the append-only sumkin table (src/sqlite.rs, SCHEMA).
The field id is the rowid assigned on insert and doubles as the
revision of the event that produced the row. -/
structure LogRow where
  id : Int
  name : String
  created : Bool
  deleted : Bool
  create_revision : Int
  prev_revision : Option Int
  lease : Option Int
  value : Option (List Nat)
  old_value : Option (List Nat)
deriving DecidableEq

/-- The projection returned to callers (src/traits.rs, KeyValue):
key is the row's name, mod_revision is the row's id (alias theid). -/
structure KeyValue where
  key : String
  create_revision : Int
  mod_revision : Int
  value : Option (List Nat)
  lease : Option Int
deriving DecidableEq

/-- Projection of a row onto the caller-visible KeyValue. -/
def toKeyValue (r : LogRow) : KeyValue :=
  ⟨r.name, r.create_revision, r.id, r.value, r.lease⟩

/-- The whole log, in insertion order. -/
abbrev Store := List LogRow

/-- ASCII-only lowercasing, as sqlite3UpperToLower does for LIKE. -/
def asciiLower (c : Char) : Char :=
  if 'A' ≤ c ∧ c ≤ 'Z' then Char.ofNat (c.toNat + 32) else c

/-- Character comparison used by SQLite LIKE: equal after ASCII
lowercasing. -/
def charLikeEq (p c : Char) : Bool :=
  asciiLower p == asciiLower c

/-- SQLite LIKE pattern matching over character lists: percent matches
any sequence of zero or more characters, underscore matches any single
character, other characters compare ASCII-case-insensitively. The
visibility query matches names with name LIKE ? (sql::LIST_SQL). -/
def likeMatch : List Char → List Char → Bool
  | [], s => s.isEmpty
  | p :: ps, s =>
    if p = '%' then s.tails.any (fun t => likeMatch ps t)
    else
      match s with
      | [] => false
      | c :: s2 => (p == '_' || charLikeEq p c) && likeMatch ps s2

/-- The ends_with check of list_current_with_tx for the path
separator. -/
def endsWithSlash (s : String) : Bool :=
  s.data.getLast? == some '/'

/-- The pattern binding of list_current_with_tx: a name ending in the
separator gets a percent appended before LIKE; any other name is the
LIKE pattern itself. -/
def nameMatches (pre name : String) : Bool :=
  if endsWithSlash pre then likeMatch (pre.data ++ ['%']) name.data
  else likeMatch pre.data name.data

/-- MAX(id) over the whole log (CURRENT_REVISION_SQL); 0 on the empty
log, matching the decode of SQL NULL observed by the tests. -/
def current_revision (log : Store) : Int :=
  log.foldl (fun a r => max a r.id) 0

/-- The inner GROUP BY name / MAX(id) subquery of LIST_SQL: the row r
is the maximal-id row among the LIKE-matching rows sharing its name. -/
def isCurrentAmong (log : Store) (pre : String) (r : LogRow) : Bool :=
  log.all (fun r2 => !(nameMatches pre r2.name && r2.name == r.name && decide (r.id < r2.id)))

/-- Comparison by id, for ORDER BY kv.id ASC. -/
def rowLe (a b : LogRow) : Prop := a.id ≤ b.id

instance : DecidableRel rowLe := fun a b => Int.decLe a.id b.id

instance : IsTotal LogRow rowLe := ⟨fun a b => Int.le_total a.id b.id⟩

instance : IsTrans LogRow rowLe := ⟨fun _ _ _ h1 h2 => le_trans h1 h2⟩

/-- ORDER BY kv.id ASC. -/
def sortById (l : List LogRow) : List LogRow :=
  List.insertionSort rowLe l

/-- The rows produced by LIST_SQL before the LIMIT clause: maximal-id
rows per name among LIKE-matching rows, tombstones dropped unless
include_deleted is set, ordered by ascending id. -/
def visRows (log : Store) (pre : String) (includeDeleted : Bool) : List LogRow :=
  sortById (log.filter (fun r =>
    nameMatches pre r.name && isCurrentAmong log pre r && (!r.deleted || includeDeleted)))

/-- The unlimited result of the visibility query, projected to
KeyValues. -/
def visKVs (log : Store) (pre : String) (includeDeleted : Bool) : List KeyValue :=
  (visRows log pre includeDeleted).map toKeyValue

/-- The LIMIT clause of list_current_with_tx, appended only for a
positive limit. -/
def applyLimit (limit : Int) (l : List KeyValue) : List KeyValue :=
  if 0 < limit then l.take limit.toNat else l

/-- SqliteBackend::list_current_with_tx. -/
def list_current (log : Store) (pre : String) (limit : Int) (includeDeleted : Bool) : List KeyValue :=
  applyLimit limit (visKVs log pre includeDeleted)

/-- Backend::get and SqliteBackend::get_with_tx with no revision
argument: the first element of list_current with limit 1, excluding
deleted rows. -/
def get (log : Store) (name : String) : Option KeyValue :=
  (list_current log name 1 false).head?

/-- Outcome of the full get entry point: the branch taken on a
supplied revision reaches the unimplemented macro. -/
inductive GetOutcome where
  | notImplemented
  | ok (kv : Option KeyValue)
deriving DecidableEq

/-- Backend::get including the optional revision parameter. -/
def getAt (log : Store) (name : String) (revision : Option Int) : GetOutcome :=
  match revision with
  | some _ => GetOutcome.notImplemented
  | none => GetOutcome.ok (get log name)

/-- SqliteBackend::insert_with_tx: append one row; AUTOINCREMENT
assigns rowid MAX(id) + 1 on this append-only table and
last_insert_rowid returns it. -/
def insertRow (log : Store) (name : String) (created deleted : Bool)
    (create_revision : Int) (prev_revision : Option Int) (lease : Option Int)
    (value : Option (List Nat)) (old_value : Option (List Nat)) : Store × Int :=
  let newId := current_revision log + 1
  (log ++ [⟨newId, name, created, deleted, create_revision, prev_revision, lease, value, old_value⟩], newId)

/-- SqliteBackend::put: update the resolved current row, or create. -/
def put (log : Store) (name : String) (value : List Nat) : Store × Int :=
  let next := current_revision log + 1
  match get log name with
  | some kv => insertRow log name false false kv.create_revision none none (some value) kv.value
  | none => insertRow log name true false next none none (some value) none

/-- SqliteBackend::delete: tombstone the resolved current row, or
report the unchanged current revision. -/
def delete (log : Store) (name : String) : Store × Int :=
  match get log name with
  | some kv => insertRow log name false true 0 none none none kv.value
  | none => (log, current_revision log)

/-- Backend::count: COUNT over the unlimited visibility query; the
unbound include_deleted parameter of COUNT_SQL is NULL, which behaves
as false. -/
def count (log : Store) (pre : String) : Nat :=
  (visKVs log pre false).length

/-- A mutation request against the backend. -/
inductive Op where
  | putOp (name : String) (value : List Nat)
  | delOp (name : String)
deriving DecidableEq

/-- Run one mutation, returning the new store and the revision the
call reports. -/
def applyOp (log : Store) (op : Op) : Store × Int :=
  match op with
  | Op.putOp n v => put log n v
  | Op.delOp n => delete log n

/-- The store after the first k operations of a trace, starting from
the empty store. -/
def storeAt (ops : List Op) (k : Nat) : Store :=
  (ops.take k).foldl (fun s op => (applyOp s op).1) []

/-- The revision reported by the j-th operation of a trace. -/
def retAt (ops : List Op) (j : Nat) : Int :=
  (applyOp (storeAt ops j) (ops.getD j (Op.delOp ""))).2

/-- Every differently-named row the LIKE pattern of k reaches is in
fact named k; under this closure the code's LIKE resolution coincides
with exact-name resolution. -/
def matchClosed (log : Store) (k : String) : Prop :=
  ∀ r ∈ log, nameMatches k r.name = true → r.name = k

instance (log : Store) (k : String) : Decidable (matchClosed log k) :=
  inferInstanceAs (Decidable (∀ r ∈ log, nameMatches k r.name = true → r.name = k))

/-- The key k has no live current row in the exact-name sense of the
data model: every row named k is a tombstone or superseded by a later
row named k. -/
def noLiveExactCurrent (log : Store) (k : String) : Prop :=
  ∀ r ∈ log, r.name = k → r.deleted = true ∨ ∃ r2 ∈ log, r2.name = k ∧ r.id < r2.id

instance (log : Store) (k : String) : Decidable (noLiveExactCurrent log k) :=
  inferInstanceAs (Decidable
    (∀ r ∈ log, r.name = k → r.deleted = true ∨ ∃ r2 ∈ log, r2.name = k ∧ r.id < r2.id))

/-- The key k is live: some row named k is live and maximal among the
rows named k. -/
def liveKey (log : Store) (k : String) : Bool :=
  log.any (fun r => r.name == k && !r.deleted &&
    log.all (fun r2 => !(r2.name == k && decide (r.id < r2.id))))

/-! ### Basic facts about MAX(id) -/

lemma le_foldl_max (log : Store) (a : Int) :
    a ≤ log.foldl (fun x r => max x r.id) a := by
  induction log generalizing a with
  | nil => exact le_refl a
  | cons hd tl ih => exact le_trans (le_max_left a hd.id) (ih (max a hd.id))

lemma mem_le_foldl_max (log : Store) (a : Int) :
    ∀ r ∈ log, r.id ≤ log.foldl (fun x r => max x r.id) a := by
  induction log generalizing a with
  | nil => intro r hr; cases hr
  | cons hd tl ih =>
    intro r hr
    rcases List.mem_cons.mp hr with h | h
    · subst h
      exact le_trans (le_max_right a r.id) (le_foldl_max tl (max a r.id))
    · exact ih (max a hd.id) r h

lemma current_revision_nonneg (log : Store) : 0 ≤ current_revision log :=
  le_foldl_max log 0

lemma id_le_current_revision (log : Store) (r : LogRow) (h : r ∈ log) :
    r.id ≤ current_revision log :=
  mem_le_foldl_max log 0 r h

lemma current_revision_append (log : Store) (r : LogRow) :
    current_revision (log ++ [r]) = max (current_revision log) r.id := by
  simp [current_revision, List.foldl_append]

lemma foldl_max_attained (log : Store) (a : Int) :
    log.foldl (fun x r => max x r.id) a = a ∨
      ∃ r ∈ log, log.foldl (fun x r => max x r.id) a = r.id := by
  induction log generalizing a with
  | nil => exact Or.inl rfl
  | cons hd tl ih =>
    rcases ih (max a hd.id) with h | ⟨r, hr, hre⟩
    · rcases le_total hd.id a with hle | hle
      · left
        simpa [max_eq_left hle] using h
      · right
        refine ⟨hd, List.mem_cons_self hd tl, ?_⟩
        simpa [max_eq_right hle] using h
    · exact Or.inr ⟨r, List.mem_cons_of_mem hd hr, hre⟩

lemma current_revision_attained (log : Store) (hpos : ∀ r ∈ log, 1 ≤ r.id)
    (hne : log ≠ []) : ∃ r ∈ log, current_revision log = r.id := by
  rcases foldl_max_attained log 0 with h | h
  · exfalso
    rcases List.exists_mem_of_ne_nil log hne with ⟨r, hr⟩
    have h1 := id_le_current_revision log r hr
    have h2 := hpos r hr
    rw [current_revision] at h1
    omega
  · exact h

/-! ### Facts about LIKE matching -/

lemma charLikeEq_refl (c : Char) : charLikeEq c c = true := by
  simp [charLikeEq]

lemma likeMatch_self (s : List Char) : likeMatch s s = true := by
  induction s with
  | nil => rfl
  | cons c cs ih =>
    by_cases hc : c = '%'
    · subst hc
      simp only [likeMatch, if_true, List.any_eq_true]
      refine ⟨cs, ?_, ih⟩
      rw [List.mem_tails]
      exact ⟨['%'], rfl⟩
    · simp [likeMatch, hc, charLikeEq_refl, ih]

lemma likeMatch_append_pct (s : List Char) : likeMatch (s ++ ['%']) s = true := by
  induction s with
  | nil => rfl
  | cons c cs ih =>
    by_cases hc : c = '%'
    · subst hc
      simp only [List.cons_append, likeMatch, if_true, List.any_eq_true]
      refine ⟨cs, ?_, ih⟩
      rw [List.mem_tails]
      exact ⟨['%'], rfl⟩
    · simp [likeMatch, hc, charLikeEq_refl, ih]

lemma nameMatches_self (k : String) : nameMatches k k = true := by
  unfold nameMatches
  by_cases h : endsWithSlash k = true
  · simp [h, likeMatch_append_pct]
  · simp [h, likeMatch_self]

lemma likeMatch_noWild (p : List Char) (hp : '%' ∉ p) (hu : '_' ∉ p) :
    ∀ s : List Char, likeMatch p s = true ↔ s.map asciiLower = p.map asciiLower := by
  induction p with
  | nil =>
    intro s
    cases s <;> simp [likeMatch]
  | cons c cs ih =>
    have hc1 : c ≠ '%' := fun h => hp (h ▸ List.mem_cons_self c cs)
    have hc2 : c ≠ '_' := fun h => hu (h ▸ List.mem_cons_self c cs)
    have hp2 : '%' ∉ cs := fun h => hp (List.mem_cons_of_mem c h)
    have hu2 : '_' ∉ cs := fun h => hu (List.mem_cons_of_mem c h)
    intro s
    cases s with
    | nil => simp [likeMatch, hc1]
    | cons d ds =>
      simp only [likeMatch, if_neg hc1, List.map_cons, List.cons.injEq,
        Bool.and_eq_true, Bool.or_eq_true, beq_iff_eq, charLikeEq]
      constructor
      · rintro ⟨hcd, hrest⟩
        rcases hcd with hcd | hcd
        · exact absurd hcd hc2
        · exact ⟨hcd.symm, (ih hp2 hu2 ds).mp hrest⟩
      · rintro ⟨hcd, hrest⟩
        exact ⟨Or.inr hcd.symm, (ih hp2 hu2 ds).mpr hrest⟩

/-! ### The visibility query -/

lemma mem_sortById (l : List LogRow) (r : LogRow) : r ∈ sortById l ↔ r ∈ l :=
  (List.perm_insertionSort rowLe l).mem_iff

lemma sortById_sorted (l : List LogRow) : (sortById l).Pairwise rowLe :=
  List.sorted_insertionSort rowLe l

lemma isCurrentAmong_iff (log : Store) (pre : String) (r : LogRow) :
    isCurrentAmong log pre r = true ↔
      ∀ r2 ∈ log, nameMatches pre r2.name = true → r2.name = r.name → r2.id ≤ r.id := by
  rw [isCurrentAmong, List.all_eq_true]
  constructor
  · intro h r2 h2 hm hn
    have hh := h r2 h2
    rw [hm, show (r2.name == r.name) = true from beq_iff_eq.mpr hn] at hh
    simp only [Bool.true_and, Bool.not_eq_true', decide_eq_false_iff_not, not_lt] at hh
    exact hh
  · intro h r2 h2
    by_cases hm : nameMatches pre r2.name = true
    · by_cases hn : r2.name = r.name
      · have hle := h r2 h2 hm hn
        simp [hm, hn, not_lt.mpr hle]
      · simp [hn]
    · simp [Bool.not_eq_true] at hm
      simp [hm]

lemma visFilterPred_iff (log : Store) (pre : String) (inc : Bool) (r : LogRow) :
    (nameMatches pre r.name && isCurrentAmong log pre r && (!r.deleted || inc)) = true ↔
      nameMatches pre r.name = true ∧
        (∀ r2 ∈ log, nameMatches pre r2.name = true → r2.name = r.name → r2.id ≤ r.id) ∧
        (r.deleted = false ∨ inc = true) := by
  simp only [Bool.and_eq_true, Bool.or_eq_true, Bool.not_eq_true', isCurrentAmong_iff]
  tauto

lemma mem_visRows (log : Store) (pre : String) (inc : Bool) (r : LogRow) :
    r ∈ visRows log pre inc ↔
      r ∈ log ∧ nameMatches pre r.name = true ∧ (r.deleted = false ∨ inc = true) ∧
        ∀ r2 ∈ log, r2.name = r.name → r2.id ≤ r.id := by
  rw [visRows, mem_sortById, List.mem_filter, visFilterPred_iff]
  constructor
  · rintro ⟨hmem, hmatch, hcur, hdel⟩
    refine ⟨hmem, hmatch, hdel, ?_⟩
    intro r2 h2 hnm
    exact hcur r2 h2 (by rw [hnm]; exact hmatch) hnm
  · rintro ⟨hmem, hmatch, hdel, hmax⟩
    exact ⟨hmem, hmatch, fun r2 h2 _ hnm => hmax r2 h2 hnm, hdel⟩

lemma id_inj_of_pairwise (log : Store)
    (h : log.Pairwise (fun a b => a.id ≠ b.id)) :
    ∀ r1 ∈ log, ∀ r2 ∈ log, r1.id = r2.id → r1 = r2 := by
  induction log with
  | nil => intro r1 h1; cases h1
  | cons hd tl ih =>
    rw [List.pairwise_cons] at h
    intro r1 h1 r2 h2 heq
    rcases List.mem_cons.mp h1 with e1 | e1 <;> rcases List.mem_cons.mp h2 with e2 | e2
    · rw [e1, e2]
    · exact absurd (e1 ▸ heq) (h.1 r2 e2)
    · exact absurd (e2 ▸ heq.symm) (h.1 r1 e1)
    · exact ih h.2 r1 e1 r2 e2 heq

lemma visRows_nodup (log : Store) (pre : String) (inc : Bool)
    (h : log.Pairwise (fun a b => a.id ≠ b.id)) :
    (visRows log pre inc).Nodup := by
  have hnd : log.Nodup := h.imp (fun {a b} hne (he : a = b) => hne (he ▸ rfl))
  rw [visRows]
  exact ((List.perm_insertionSort rowLe _).nodup_iff).mpr (hnd.filter _)

/-! ### Resolution of a key after appending its row -/

lemma matchClosed_append (log : Store) (k : String) (r : LogRow)
    (h1 : matchClosed log k) (hr : r.name = k) : matchClosed (log ++ [r]) k := by
  intro r2 h2 hm
  rcases List.mem_append.mp h2 with h | h
  · exact h1 r2 h hm
  · rw [List.mem_singleton] at h
    rw [h, hr]

lemma visRows_append_self (log : Store) (k : String) (r : LogRow)
    (h1 : matchClosed log k) (hname : r.name = k) (hlive : r.deleted = false)
    (hid : ∀ r2 ∈ log, r2.id < r.id) :
    visRows (log ++ [r]) k false = [r] := by
  have hmatchr : nameMatches k r.name = true := by
    rw [hname]
    exact nameMatches_self k
  rw [visRows, List.filter_append]
  have hleft : log.filter (fun r2 =>
      nameMatches k r2.name && isCurrentAmong (log ++ [r]) k r2 && (!r2.deleted || false)) = [] := by
    rw [List.filter_eq_nil_iff]
    intro a ha hpred
    rw [visFilterPred_iff] at hpred
    obtain ⟨hmatch, hcur, _⟩ := hpred
    have hak : a.name = k := h1 a ha hmatch
    have hra : r.id ≤ a.id := by
      refine hcur r (List.mem_append_right log (List.mem_singleton_self r)) hmatchr ?_
      rw [hname, hak]
    exact absurd hra (not_le.mpr (hid a ha))
  have hright : List.filter (fun r2 =>
      nameMatches k r2.name && isCurrentAmong (log ++ [r]) k r2 && (!r2.deleted || false)) [r] = [r] := by
    have hpred : (nameMatches k r.name && isCurrentAmong (log ++ [r]) k r && (!r.deleted || false)) = true := by
      rw [visFilterPred_iff]
      refine ⟨hmatchr, ?_, Or.inl hlive⟩
      intro r2 h2 _ _
      rcases List.mem_append.mp h2 with h | h
      · exact le_of_lt (hid r2 h)
      · rw [List.mem_singleton] at h
        rw [h]
    have hpred2 := hpred
    rw [Bool.or_false] at hpred2
    simp [List.filter_singleton, hpred, hpred2]
  rw [hleft, hright, List.nil_append]
  rfl

lemma get_append_self (log : Store) (k : String) (r : LogRow)
    (h1 : matchClosed log k) (hname : r.name = k) (hlive : r.deleted = false)
    (hid : ∀ r2 ∈ log, r2.id < r.id) :
    get (log ++ [r]) k = some (toKeyValue r) := by
  rw [get, list_current, visKVs, visRows_append_self log k r h1 hname hlive hid]
  rfl

lemma get_eq_none_of_noLive (log : Store) (k : String)
    (h1 : matchClosed log k) (h2 : noLiveExactCurrent log k) :
    get log k = none := by
  have hvis : visRows log k false = [] := by
    rw [visRows]
    have hfilter : log.filter (fun r =>
        nameMatches k r.name && isCurrentAmong log k r && (!r.deleted || false)) = [] := by
      rw [List.filter_eq_nil_iff]
      intro a ha hpred
      rw [visFilterPred_iff] at hpred
      obtain ⟨hmatch, hcur, hdel⟩ := hpred
      have hak : a.name = k := h1 a ha hmatch
      rcases h2 a ha hak with h | ⟨r2, hm2, hn2, hlt⟩
      · rcases hdel with hdel | hdel
        · rw [h] at hdel
          cases hdel
        · cases hdel
      · have hle : r2.id ≤ a.id := by
          refine hcur r2 hm2 ?_ ?_
          · rw [hn2]
            exact nameMatches_self k
          · rw [hn2, hak]
        omega
    rw [hfilter]
    rfl
  rw [get, list_current, visKVs, hvis]
  rfl

/-! ### Traces of mutations -/

lemma insertRow_append (log : Store) (n : String) (c d : Bool) (cr : Int)
    (pr lease : Option Int) (v ov : Option (List Nat)) :
    (insertRow log n c d cr pr lease v ov).1
        = log ++ [⟨current_revision log + 1, n, c, d, cr, pr, lease, v, ov⟩]
      ∧ (insertRow log n c d cr pr lease v ov).2 = current_revision log + 1 :=
  ⟨rfl, rfl⟩

lemma applyOp_cases (log : Store) (op : Op) :
    ((applyOp log op).1 = log ∧ (applyOp log op).2 = current_revision log)
    ∨ ∃ r : LogRow, r.id = current_revision log + 1 ∧
        (applyOp log op).1 = log ++ [r] ∧ (applyOp log op).2 = current_revision log + 1 := by
  cases op with
  | putOp n v =>
    right
    rw [applyOp, put]
    cases hg : get log n with
    | some kv =>
      exact ⟨⟨current_revision log + 1, n, false, false, kv.create_revision, none, none,
        some v, kv.value⟩, rfl, rfl, rfl⟩
    | none =>
      exact ⟨⟨current_revision log + 1, n, true, false, current_revision log + 1, none, none,
        some v, none⟩, rfl, rfl, rfl⟩
  | delOp n =>
    rw [applyOp, delete]
    cases hg : get log n with
    | some kv =>
      right
      exact ⟨⟨current_revision log + 1, n, false, true, 0, none, none, none, kv.value⟩,
        rfl, rfl, rfl⟩
    | none =>
      left
      exact ⟨rfl, rfl⟩

lemma current_revision_applyOp_ge (log : Store) (op : Op) :
    current_revision log ≤ current_revision (applyOp log op).1 := by
  rcases applyOp_cases log op with ⟨h1, _⟩ | ⟨r, _, h1, _⟩
  · rw [h1]
  · rw [h1, current_revision_append]
    exact le_max_left _ _

lemma ret_le_current_revision_next (log : Store) (op : Op) :
    (applyOp log op).2 ≤ current_revision (applyOp log op).1 := by
  rcases applyOp_cases log op with ⟨h1, h2⟩ | ⟨r, hr, h1, h2⟩
  · rw [h1, h2]
  · rw [h1, h2, current_revision_append, hr]
    exact le_max_right _ _

lemma storeAt_zero (ops : List Op) : storeAt ops 0 = [] := rfl

lemma storeAt_succ (ops : List Op) (k : Nat) (hk : k < ops.length) :
    storeAt ops (k + 1) = (applyOp (storeAt ops k) (ops.getD k (Op.delOp ""))).1 := by
  rw [storeAt, storeAt, List.take_succ, List.foldl_append,
    List.getElem?_eq_getElem hk]
  have hg : ops.getD k (Op.delOp "") = ops[k] := by
    simp [List.getD_eq_getElem?_getD, List.getElem?_eq_getElem hk]
  rw [hg]
  rfl

lemma storeAt_stab (ops : List Op) (k : Nat) (hk : ops.length ≤ k) :
    storeAt ops k = storeAt ops ops.length := by
  rw [storeAt, storeAt, List.take_of_length_le hk, List.take_length]

lemma current_revision_storeAt_le_succ (ops : List Op) (k : Nat) :
    current_revision (storeAt ops k) ≤ current_revision (storeAt ops (k + 1)) := by
  by_cases hk : k < ops.length
  · rw [storeAt_succ ops k hk]
    exact current_revision_applyOp_ge _ _
  · push_neg at hk
    rw [storeAt_stab ops k hk, storeAt_stab ops (k + 1) (le_trans hk (Nat.le_succ k))]

lemma current_revision_storeAt_mono (ops : List Op) {k k2 : Nat} (h : k ≤ k2) :
    current_revision (storeAt ops k) ≤ current_revision (storeAt ops k2) := by
  induction k2, h using Nat.le_induction with
  | base => exact le_refl _
  | succ n hn ih => exact le_trans ih (current_revision_storeAt_le_succ ops n)

lemma storeAt_id_pos (ops : List Op) (k : Nat) :
    ∀ r ∈ storeAt ops k, 1 ≤ r.id := by
  induction k with
  | zero => intro r hr; cases hr
  | succ n ih =>
    by_cases hn : n < ops.length
    · rw [storeAt_succ ops n hn]
      rcases applyOp_cases (storeAt ops n) (ops.getD n (Op.delOp "")) with ⟨h1, _⟩ | ⟨r0, hr0, h1, _⟩
      · rw [h1]
        exact ih
      · rw [h1]
        intro r hr
        rcases List.mem_append.mp hr with h | h
        · exact ih r h
        · rw [List.mem_singleton] at h
          subst h
          have := current_revision_nonneg (storeAt ops n)
          omega
    · push_neg at hn
      rw [storeAt_stab ops (n + 1) (le_trans hn (Nat.le_succ n)), ← storeAt_stab ops n hn]
      exact ih

/-! ### Example stores used by witnesses and counterexamples -/

/-- A store holding one live row named ab: the state after put ab. -/
def exLogAb : Store := [⟨1, "ab", true, false, 1, none, none, some [0], none⟩]

/-- A store holding one live row named under a hierarchical parent. -/
def exLogChild : Store := [⟨1, "/a/b", true, false, 1, none, none, some [0], none⟩]

/-- A three-row store exercising update and tombstone rows. -/
def exLogMix : Store :=
  [⟨1, "a", true, false, 1, none, none, some [0], none⟩,
   ⟨2, "b", true, false, 2, none, none, some [1], none⟩,
   ⟨3, "a", false, true, 1, none, none, none, some [0]⟩]

/-! ### Claim C1 -/

/-- Claim C1: for every prefix, limit and include_deleted flag,
list_current returns, among the rows whose name matches the prefix,
exactly one row per name, namely the maximal-id row for that name; it
drops tombstones unless include_deleted is set, orders the survivors
ascending by id (the mod_revision of the returned KeyValue), truncates
the ordered result to limit rows for a positive limit, and returns all
of it for a non-positive limit. Stated over logs with pairwise-distinct
ids, which the primary key guarantees. -/
theorem C1_list_current_correct (log : Store) (pre : String) (limit : Int) (inc : Bool)
    (hids : log.Pairwise (fun a b => a.id ≠ b.id)) :
    (∀ kv, kv ∈ visKVs log pre inc ↔ ∃ r, r ∈ log ∧ kv = toKeyValue r ∧
        nameMatches pre r.name = true ∧ (r.deleted = false ∨ inc = true) ∧
        ∀ r2 ∈ log, r2.name = r.name → r2.id ≤ r.id)
    ∧ (∀ kv1 ∈ visKVs log pre inc, ∀ kv2 ∈ visKVs log pre inc, kv1.key = kv2.key → kv1 = kv2)
    ∧ (visKVs log pre inc).Nodup
    ∧ ((visKVs log pre inc).map KeyValue.mod_revision).Pairwise (fun a b => a ≤ b)
    ∧ (0 < limit → list_current log pre limit inc = (visKVs log pre inc).take limit.toNat)
    ∧ (limit ≤ 0 → list_current log pre limit inc = visKVs log pre inc) := by
  have hmemKV : ∀ kv, kv ∈ visKVs log pre inc ↔
      ∃ r, r ∈ visRows log pre inc ∧ toKeyValue r = kv := by
    intro kv
    rw [visKVs, List.mem_map]
  refine ⟨?_, ?_, ?_, ?_, ?_, ?_⟩
  · intro kv
    rw [hmemKV]
    constructor
    · rintro ⟨r, hr, hkv⟩
      rw [mem_visRows] at hr
      exact ⟨r, hr.1, hkv.symm, hr.2⟩
    · rintro ⟨r, hmem, hkv, hrest⟩
      refine ⟨r, ?_, hkv.symm⟩
      rw [mem_visRows]
      exact ⟨hmem, hrest⟩
  · intro kv1 h1 kv2 h2 hk
    rcases (hmemKV kv1).mp h1 with ⟨r1, hr1, he1⟩
    rcases (hmemKV kv2).mp h2 with ⟨r2, hr2, he2⟩
    rw [mem_visRows] at hr1 hr2
    have hn : r1.name = r2.name := by
      have e1 : kv1.key = r1.name := by rw [← he1]; rfl
      have e2 : kv2.key = r2.name := by rw [← he2]; rfl
      rw [← e1, ← e2, hk]
    have hle1 : r1.id ≤ r2.id := hr2.2.2.2 r1 hr1.1 hn
    have hle2 : r2.id ≤ r1.id := hr1.2.2.2 r2 hr2.1 hn.symm
    have heq : r1 = r2 :=
      id_inj_of_pairwise log hids r1 hr1.1 r2 hr2.1 (le_antisymm hle1 hle2)
    rw [← he1, ← he2, heq]
  · rw [visKVs]
    refine List.Nodup.map_on ?_ (visRows_nodup log pre inc hids)
    intro r1 hr1 r2 hr2 he
    have hid : r1.id = r2.id := congrArg KeyValue.mod_revision he
    rw [mem_visRows] at hr1 hr2
    exact id_inj_of_pairwise log hids r1 hr1.1 r2 hr2.1 hid
  · rw [visKVs, List.map_map]
    exact List.Pairwise.map (KeyValue.mod_revision ∘ toKeyValue) (fun a b h => h)
      (sortById_sorted _)
  · intro hpos
    rw [list_current, applyLimit, if_pos hpos]
  · intro hneg
    rw [list_current, applyLimit, if_neg (not_lt.mpr hneg)]

/-- Closed witness for C1: the theorem applied to a concrete mixed
store, prefix a, limit 2 and include_deleted false, its hypothesis
discharged by computation. -/
theorem C1_list_current_correct_witness :
    exLogMix.Pairwise (fun a b => a.id ≠ b.id)
    ∧ ((∀ kv, kv ∈ visKVs exLogMix "a" false ↔ ∃ r, r ∈ exLogMix ∧ kv = toKeyValue r ∧
          nameMatches "a" r.name = true ∧ (r.deleted = false ∨ false = true) ∧
          ∀ r2 ∈ exLogMix, r2.name = r.name → r2.id ≤ r.id)
      ∧ (∀ kv1 ∈ visKVs exLogMix "a" false, ∀ kv2 ∈ visKVs exLogMix "a" false,
          kv1.key = kv2.key → kv1 = kv2)
      ∧ (visKVs exLogMix "a" false).Nodup
      ∧ ((visKVs exLogMix "a" false).map KeyValue.mod_revision).Pairwise (fun a b => a ≤ b)
      ∧ (0 < (2 : Int) → list_current exLogMix "a" 2 false = (visKVs exLogMix "a" false).take (2 : Int).toNat)
      ∧ ((2 : Int) ≤ 0 → list_current exLogMix "a" 2 false = visKVs exLogMix "a" false)) :=
  ⟨by decide, C1_list_current_correct exLogMix "a" 2 false (by decide)⟩

/-! ### Claim C2 -/

/-- Claim C2: revisions are strictly increasing across all keys
combined. In the empty store current_revision is 0; an appending
mutation executed on the empty store returns revision 1; along any
trace of operations started from the empty store, an operation that
appends a row returns a revision strictly greater than the revision
returned by every earlier operation; and current_revision always
equals the maximum id over the whole log (every id is bounded by it
and, on a nonempty log, it is attained). -/
theorem C2_revisions_strictly_increasing (ops : List Op) (i j : Nat) (hij : i < j)
    (hj : j < ops.length)
    (happ : (storeAt ops j).length < (storeAt ops (j + 1)).length) :
    current_revision ([] : Store) = 0
    ∧ (storeAt ops j = [] → retAt ops j = 1)
    ∧ retAt ops i < retAt ops j
    ∧ ∀ k : Nat, (∀ r ∈ storeAt ops k, r.id ≤ current_revision (storeAt ops k))
        ∧ (storeAt ops k ≠ [] →
            ∃ r ∈ storeAt ops k, current_revision (storeAt ops k) = r.id) := by
  have hsj := storeAt_succ ops j hj
  have happend : retAt ops j = current_revision (storeAt ops j) + 1 := by
    rcases applyOp_cases (storeAt ops j) (ops.getD j (Op.delOp "")) with ⟨h1, _⟩ | ⟨r, _, _, h2⟩
    · exfalso
      rw [hsj, h1] at happ
      exact lt_irrefl _ happ
    · rw [retAt, h2]
  refine ⟨rfl, ?_, ?_, ?_⟩
  · intro hempty
    rw [happend, hempty]
    rfl
  · have hi : i < ops.length := lt_trans hij hj
    have h1 : retAt ops i ≤ current_revision (storeAt ops (i + 1)) := by
      rw [storeAt_succ ops i hi]
      exact ret_le_current_revision_next _ _
    have h2 : current_revision (storeAt ops (i + 1)) ≤ current_revision (storeAt ops j) :=
      current_revision_storeAt_mono ops hij
    rw [happend]
    omega
  · intro k
    refine ⟨fun r hr => id_le_current_revision _ r hr, fun hne => ?_⟩
    exact current_revision_attained _ (storeAt_id_pos ops k) hne

/-- Closed witness for C2: on the trace put a, put b the second
operation appends and returns a revision above the first. -/
theorem C2_revisions_strictly_increasing_witness :
    ((0 : Nat) < 1 ∧ (1 : Nat) < 2
      ∧ (storeAt [Op.putOp "a" [0], Op.putOp "b" [1]] 1).length
          < (storeAt [Op.putOp "a" [0], Op.putOp "b" [1]] 2).length)
    ∧ (current_revision ([] : Store) = 0
      ∧ (storeAt [Op.putOp "a" [0], Op.putOp "b" [1]] 1 = []
          → retAt [Op.putOp "a" [0], Op.putOp "b" [1]] 1 = 1)
      ∧ retAt [Op.putOp "a" [0], Op.putOp "b" [1]] 0
          < retAt [Op.putOp "a" [0], Op.putOp "b" [1]] 1
      ∧ ∀ k : Nat, (∀ r ∈ storeAt [Op.putOp "a" [0], Op.putOp "b" [1]] k,
            r.id ≤ current_revision (storeAt [Op.putOp "a" [0], Op.putOp "b" [1]] k))
          ∧ (storeAt [Op.putOp "a" [0], Op.putOp "b" [1]] k ≠ [] →
              ∃ r ∈ storeAt [Op.putOp "a" [0], Op.putOp "b" [1]] k,
                current_revision (storeAt [Op.putOp "a" [0], Op.putOp "b" [1]] k) = r.id)) :=
  ⟨⟨by decide, by decide, by decide⟩,
    C2_revisions_strictly_increasing [Op.putOp "a" [0], Op.putOp "b" [1]] 0 1
      (by decide) (by decide) (by decide)⟩

/-! ### Claim C3 -/

/-- A helper shape for put: whatever branch is taken, put appends one
live row named k carrying the new value, whose id is the returned
revision MAX(id) + 1. -/
lemma put_shape (log : Store) (k : String) (v : List Nat) :
    ∃ A : LogRow, (put log k v).1 = log ++ [A] ∧ (put log k v).2 = A.id
      ∧ A.name = k ∧ A.deleted = false ∧ A.value = some v ∧ A.lease = none
      ∧ A.id = current_revision log + 1 := by
  rw [put]
  cases hg : get log k with
  | some kv =>
    exact ⟨⟨current_revision log + 1, k, false, false, kv.create_revision, none, none,
      some v, kv.value⟩, rfl, rfl, rfl, rfl, rfl, rfl, rfl⟩
  | none =>
    exact ⟨⟨current_revision log + 1, k, true, false, current_revision log + 1, none, none,
      some v, none⟩, rfl, rfl, rfl, rfl, rfl, rfl, rfl⟩

lemma get_put_self (log : Store) (k : String) (v : List Nat)
    (h1 : matchClosed log k) :
    ∃ cr : Int, get (put log k v).1 k = some ⟨k, cr, (put log k v).2, some v, none⟩
      ∧ matchClosed (put log k v).1 k
      ∧ (put log k v).2 = current_revision log + 1 := by
  obtain ⟨A, hA1, hA2, hAname, hAdel, hAval, hAlease, hAid⟩ := put_shape log k v
  have hid0 : ∀ r2 ∈ log, r2.id < A.id := by
    intro r2 h2
    have := id_le_current_revision log r2 h2
    omega
  have hget := get_append_self log k A h1 hAname hAdel hid0
  refine ⟨A.create_revision, ?_, ?_, by rw [hA2, hAid]⟩
  · rw [hA1, hA2, hget, toKeyValue, hAname, hAval, hAlease]
  · rw [hA1]
    exact matchClosed_append log k A h1 hAname

/-- Counterexample to C3 as stated: start from the store holding only
key ab with value 0, take k to be the two-character key a underscore
(an exact key name containing a LIKE wildcard), v1 the value 1 and v2
the value 2. After put k v1, the second put k v2 appends a row whose
old_value is 0, the value of the differently-named row ab that the
LIKE resolution finds first, and not the superseded value v1 = 1
required by the claim. -/
theorem C3_cex :
    (((put (put (put ([] : Store) "ab" [0]).1 "a_" [1]).1 "a_" [2]).1.getLast?).map
        LogRow.old_value) = some (some [0])
    ∧ some (some [0]) ≠ some (some ([1] : List Nat)) :=
  ⟨by decide, by decide⟩

/-- Claim C3 amended: the claim holds for keys whose LIKE pattern
reaches no differently-named logged row (in particular keys free of
wildcard characters with no case-variant sibling). Under that closure,
after put k v1, a second put k v2 appends a row with created = false
and deleted = false, create_revision copied unchanged from the current
row, value v2 and old_value v1; the KeyValue returned by get k
afterwards carries the original create_revision and a mod_revision
equal to the second put's returned revision. -/
theorem C3_put_update (log : Store) (k : String) (v1 v2 : List Nat)
    (h1 : matchClosed log k) :
    ∃ cr : Int,
      get (put log k v1).1 k = some ⟨k, cr, (put log k v1).2, some v1, none⟩
      ∧ (put (put log k v1).1 k v2).1
          = (put log k v1).1
            ++ [⟨current_revision (put log k v1).1 + 1, k, false, false, cr, none, none,
                some v2, some v1⟩]
      ∧ (put (put log k v1).1 k v2).2 = current_revision (put log k v1).1 + 1
      ∧ get (put (put log k v1).1 k v2).1 k
          = some ⟨k, cr, (put (put log k v1).1 k v2).2, some v2, none⟩ := by
  obtain ⟨cr, hget1, hclosed1, _⟩ := get_put_self log k v1 h1
  have hput2 : put (put log k v1).1 k v2
      = insertRow (put log k v1).1 k false false cr none none (some v2) (some v1) := by
    rw [put, hget1]
  have hl2 : (put (put log k v1).1 k v2).1
      = (put log k v1).1 ++ [⟨current_revision (put log k v1).1 + 1, k, false, false, cr,
          none, none, some v2, some v1⟩] := by
    rw [hput2]
    rfl
  have hret : (put (put log k v1).1 k v2).2 = current_revision (put log k v1).1 + 1 := by
    rw [hput2]
    rfl
  refine ⟨cr, hget1, hl2, hret, ?_⟩
  have hid1 : ∀ r2 ∈ (put log k v1).1,
      r2.id < (⟨current_revision (put log k v1).1 + 1, k, false, false, cr,
        none, none, some v2, some v1⟩ : LogRow).id := by
    intro r2 h2
    have := id_le_current_revision (put log k v1).1 r2 h2
    simp only []
    omega
  have hgetB := get_append_self (put log k v1).1 k
    ⟨current_revision (put log k v1).1 + 1, k, false, false, cr, none, none, some v2, some v1⟩
    hclosed1 rfl rfl hid1
  rw [hl2, hret, hgetB]
  rfl

/-- Closed witness for the amended C3 at the empty store and key k. -/
theorem C3_put_update_witness :
    matchClosed ([] : Store) "k"
    ∧ ∃ cr : Int,
        get (put ([] : Store) "k" [1]).1 "k"
            = some ⟨"k", cr, (put ([] : Store) "k" [1]).2, some [1], none⟩
        ∧ (put (put ([] : Store) "k" [1]).1 "k" [2]).1
            = (put ([] : Store) "k" [1]).1
              ++ [⟨current_revision (put ([] : Store) "k" [1]).1 + 1, "k", false, false, cr,
                  none, none, some [2], some [1]⟩]
        ∧ (put (put ([] : Store) "k" [1]).1 "k" [2]).2
            = current_revision (put ([] : Store) "k" [1]).1 + 1
        ∧ get (put (put ([] : Store) "k" [1]).1 "k" [2]).1 "k"
            = some ⟨"k", cr, (put (put ([] : Store) "k" [1]).1 "k" [2]).2, some [2], none⟩ :=
  ⟨by decide, C3_put_update ([] : Store) "k" [1] [2] (by decide)⟩

/-! ### Claim C4 -/

/-- Counterexample to C4 as stated: with the store holding only the
key ab, the key a underscore has no row at all, hence no current live
row in the exact-name sense of the data model; yet put of that key
appends a row with created = false, because the LIKE resolution of
get finds the row named ab. -/
theorem C4_cex :
    (∀ r ∈ exLogAb, r.name ≠ "a_")
    ∧ ((put exLogAb "a_" [1]).1.getLast?).map LogRow.created = some false
    ∧ some false ≠ some true :=
  ⟨by decide, by decide, by decide⟩

/-- Claim C4 amended: the claim holds for keys whose LIKE pattern
reaches no differently-named logged row. For such a key with no
current live row, put appends a creation row with created = true whose
create_revision is the current revision plus one and equals both the
id assigned to the new row and the revision put returns. -/
theorem C4_put_creates (log : Store) (k : String) (v : List Nat)
    (h1 : matchClosed log k) (h2 : noLiveExactCurrent log k) :
    put log k v
      = (log ++ [⟨current_revision log + 1, k, true, false, current_revision log + 1,
          none, none, some v, none⟩], current_revision log + 1) := by
  rw [put, get_eq_none_of_noLive log k h1 h2]
  rfl

/-- Closed witness for the amended C4: a tombstoned key is recreated
with created = true and matching create_revision, id and returned
revision. -/
theorem C4_put_creates_witness :
    (matchClosed exLogMix "b2" ∧ noLiveExactCurrent exLogMix "b2")
    ∧ put exLogMix "b2" [5]
        = (exLogMix ++ [⟨current_revision exLogMix + 1, "b2", true, false,
            current_revision exLogMix + 1, none, none, some [5], none⟩],
           current_revision exLogMix + 1) :=
  ⟨⟨by decide, by decide⟩, C4_put_creates exLogMix "b2" [5] (by decide) (by decide)⟩

/-! ### Claim C5 -/

/-- Counterexample to C5 as stated: with the store holding the key ab
with value 0, put of the wildcard-bearing key a underscore with value
1 followed by get of that key returns the value 0 of the
differently-named row ab, not the value just written. -/
theorem C5_cex :
    ((get (put (put ([] : Store) "ab" [0]).1 "a_" [1]).1 "a_").map KeyValue.value)
        = some (some [0])
    ∧ some (some [0]) ≠ some (some ([1] : List Nat)) :=
  ⟨by decide, by decide⟩

/-- Claim C5 amended: put k v followed by get k returns a KeyValue
whose value is v for every key whose LIKE pattern reaches no
differently-named logged row; and, unconditionally, get with no
explicit revision is exactly list_current with the key, limit 1 and
include_deleted false, followed by taking the first element. -/
theorem C5_roundtrip (log : Store) (k : String) (v : List Nat)
    (h1 : matchClosed log k) :
    (∃ kv : KeyValue, get (put log k v).1 k = some kv ∧ kv.value = some v)
    ∧ ∀ (l : Store) (n : String),
        getAt l n none = GetOutcome.ok ((list_current l n 1 false).head?) := by
  obtain ⟨cr, hget, _, _⟩ := get_put_self log k v h1
  exact ⟨⟨⟨k, cr, (put log k v).2, some v, none⟩, hget, rfl⟩, fun l n => rfl⟩

/-- Closed witness for the amended C5 at the empty store. -/
theorem C5_roundtrip_witness :
    matchClosed ([] : Store) "w"
    ∧ ((∃ kv : KeyValue, get (put ([] : Store) "w" [9]).1 "w" = some kv ∧ kv.value = some [9])
      ∧ ∀ (l : Store) (n : String),
          getAt l n none = GetOutcome.ok ((list_current l n 1 false).head?)) :=
  ⟨by decide, C5_roundtrip ([] : Store) "w" [9] (by decide)⟩

/-! ### Claim C6 -/

/-- Counterexample to C6 as stated: with the store holding only the
key ab, the key a underscore has no row at all, hence an absent
current row; yet delete of that key appends a tombstone (the log grows
from one row to two) and returns revision 2, not the unchanged current
revision 1, because LIKE resolution finds the row named ab. -/
theorem C6_cex :
    (∀ r ∈ exLogAb, r.name ≠ "a_")
    ∧ ((delete exLogAb "a_").1).length = 2
    ∧ (delete exLogAb "a_").2 = 2
    ∧ current_revision exLogAb = 1 :=
  ⟨by decide, by decide, by decide, by decide⟩

/-- Claim C6 amended: the claim holds for keys whose LIKE pattern
reaches no differently-named logged row. For such a key whose current
row is absent or a tombstone, delete inserts no row, returns the
store's current global revision, and repeating the delete returns the
very same revision on the unchanged log. -/
theorem C6_delete_noop (log : Store) (k : String)
    (h1 : matchClosed log k) (h2 : noLiveExactCurrent log k) :
    delete log k = (log, current_revision log)
    ∧ delete (delete log k).1 k = (log, current_revision log) := by
  have hnone := get_eq_none_of_noLive log k h1 h2
  have hdel : delete log k = (log, current_revision log) := by
    rw [delete, hnone]
  exact ⟨hdel, by rw [hdel, delete, hnone]⟩

/-- Closed witness for the amended C6: deleting the tombstoned key a
of the mixed store changes nothing, twice. -/
theorem C6_delete_noop_witness :
    (matchClosed exLogMix "a" ∧ noLiveExactCurrent exLogMix "a")
    ∧ (delete exLogMix "a" = (exLogMix, current_revision exLogMix)
      ∧ delete (delete exLogMix "a").1 "a" = (exLogMix, current_revision exLogMix)) :=
  ⟨⟨by decide, by decide⟩, C6_delete_noop exLogMix "a" (by decide) (by decide)⟩

/-! ### Claim C7 -/

lemma liveKey_append_ne (log : Store) (r : LogRow) (k : String) (hne : r.name ≠ k) :
    liveKey (log ++ [r]) k = liveKey log k := by
  rw [liveKey, liveKey, List.any_append]
  have hrk : (r.name == k) = false := beq_eq_false_iff_ne.mpr hne
  have hone : List.any [r] (fun r0 => r0.name == k && !r0.deleted &&
      (log ++ [r]).all (fun r2 => !(r2.name == k && decide (r0.id < r2.id)))) = false := by
    simp [hrk]
  rw [hone, Bool.or_false]
  have hall : ∀ r0 : LogRow, ((log ++ [r]).all
      (fun r2 => !(r2.name == k && decide (r0.id < r2.id))))
      = (log.all (fun r2 => !(r2.name == k && decide (r0.id < r2.id)))) := by
    intro r0
    rw [List.all_append]
    have : List.all [r] (fun r2 => !(r2.name == k && decide (r0.id < r2.id))) = true := by
      simp [hrk]
    rw [this, Bool.and_true]
  simp only [hall]

/-- Counterexample to C7 as stated: the store holds one live child
key under the hierarchical parent; deleting the parent name ending in
the separator is not an exact-key no-op: it appends a tombstone row
(the log grows to two rows) and returns the advanced revision 2. -/
theorem C7_cex :
    endsWithSlash "/a/" = true
    ∧ ((delete exLogChild "/a/").1).length = 2
    ∧ (delete exLogChild "/a/").2 = 2
    ∧ current_revision exLogChild = 1 :=
  ⟨by decide, by decide, by decide, by decide⟩

/-- Claim C7 amended: a delete of a name ending in the path separator
is evaluated hierarchically, not as an exact-key delete. When the
visibility query finds nothing under the prefix it is a no-op
returning the unchanged current revision; when it finds a live row it
appends a tombstone bearing the prefix as its literal name and returns
the advanced revision, while every other key keeps exactly its
liveness. -/
theorem C7_trailing_sep_delete (log : Store) (name : String)
    (hs : endsWithSlash name = true) :
    (get log name = none → delete log name = (log, current_revision log))
    ∧ ∀ kv : KeyValue, get log name = some kv →
        (delete log name).1
            = log ++ [⟨current_revision log + 1, name, false, true, 0, none, none, none,
                kv.value⟩]
        ∧ (delete log name).2 = current_revision log + 1
        ∧ ∀ k2 : String, k2 ≠ name → liveKey (delete log name).1 k2 = liveKey log k2 := by
  constructor
  · intro hnone
    rw [delete, hnone]
  · intro kv hkv
    have hdel : delete log name
        = (log ++ [⟨current_revision log + 1, name, false, true, 0, none, none, none,
            kv.value⟩], current_revision log + 1) := by
      rw [delete, hkv]
      rfl
    refine ⟨by rw [hdel], by rw [hdel], ?_⟩
    intro k2 hk2
    rw [hdel]
    exact liveKey_append_ne log _ k2 (fun he => hk2 he.symm)

/-- Closed witness for the amended C7 on the one-child store. -/
theorem C7_trailing_sep_delete_witness :
    endsWithSlash "/a/" = true
    ∧ ((get exLogChild "/a/" = none
          → delete exLogChild "/a/" = (exLogChild, current_revision exLogChild))
      ∧ ∀ kv : KeyValue, get exLogChild "/a/" = some kv →
          (delete exLogChild "/a/").1
              = exLogChild ++ [⟨current_revision exLogChild + 1, "/a/", false, true, 0,
                  none, none, none, kv.value⟩]
          ∧ (delete exLogChild "/a/").2 = current_revision exLogChild + 1
          ∧ ∀ k2 : String, k2 ≠ "/a/" →
              liveKey (delete exLogChild "/a/").1 k2 = liveKey exLogChild k2) :=
  ⟨by decide, C7_trailing_sep_delete exLogChild "/a/" (by decide)⟩

/-! ### Claim C8 -/

/-- Counterexample to C8 as stated: the prefix a percent does not end
in the path separator, yet list_current on it returns the row named
ab, whose name differs from the prefix — the percent character is a
LIKE wildcard, not a literal. -/
theorem C8_cex :
    endsWithSlash "a%" = false
    ∧ list_current exLogAb "a%" (-1) false = [⟨"ab", 1, 1, some [0], none⟩]
    ∧ ("ab" : String) ≠ "a%" :=
  ⟨by decide, by decide, by decide⟩

/-- Claim C8 amended: for a prefix not ending in the path separator,
candidates are the rows whose name LIKE-matches the prefix. When the
prefix contains neither the percent nor the underscore wildcard, the
pattern matches exactly the names that agree with the prefix after
ASCII lowercasing, so every returned key equals the prefix up to ASCII
letter case; prefixes containing wildcards can match differing names. -/
theorem C8_exact_match_up_to_case (log : Store) (pre : String) (limit : Int) (inc : Bool)
    (hns : endsWithSlash pre = false)
    (hpct : '%' ∉ pre.data) (hund : '_' ∉ pre.data) :
    (∀ s : List Char, likeMatch pre.data s = true ↔ s.map asciiLower = pre.data.map asciiLower)
    ∧ ∀ kv ∈ list_current log pre limit inc,
        kv.key.data.map asciiLower = pre.data.map asciiLower := by
  refine ⟨likeMatch_noWild pre.data hpct hund, ?_⟩
  intro kv hkv
  have hsub : kv ∈ visKVs log pre inc := by
    rw [list_current, applyLimit] at hkv
    by_cases hpos : (0 : Int) < limit
    · rw [if_pos hpos] at hkv
      exact List.take_subset _ _ hkv
    · rw [if_neg hpos] at hkv
      exact hkv
  rw [visKVs, List.mem_map] at hsub
  obtain ⟨r, hr, hre⟩ := hsub
  rw [mem_visRows] at hr
  have hmatch := hr.2.1
  rw [nameMatches, hns] at hmatch
  simp only [Bool.false_eq_true, if_false] at hmatch
  have hkey : kv.key = r.name := by rw [← hre]; rfl
  rw [hkey]
  exact (likeMatch_noWild pre.data hpct hund r.name.data).mp hmatch

/-- Closed witness for the amended C8 on the one-row store with the
wildcard-free prefix ab. -/
theorem C8_exact_match_up_to_case_witness :
    (endsWithSlash "ab" = false ∧ '%' ∉ "ab".data ∧ '_' ∉ "ab".data)
    ∧ ((∀ s : List Char,
          likeMatch "ab".data s = true ↔ s.map asciiLower = "ab".data.map asciiLower)
      ∧ ∀ kv ∈ list_current exLogAb "ab" (-1) false,
          kv.key.data.map asciiLower = "ab".data.map asciiLower) :=
  ⟨⟨by decide, by decide, by decide⟩,
    C8_exact_match_up_to_case exLogAb "ab" (-1) false (by decide) (by decide) (by decide)⟩

/-! ### Claim C9 -/

/-- Claim C9: for every key and every explicitly supplied revision,
get fails immediately with the not-implemented signal and never
returns a value, as in the unimplemented branch of Backend::get and
get_with_tx. -/
theorem C9_get_revision_unimplemented (log : Store) (name : String) (rev : Int) :
    getAt log name (some rev) = GetOutcome.notImplemented
    ∧ ∀ o : Option KeyValue, getAt log name (some rev) ≠ GetOutcome.ok o :=
  ⟨rfl, fun _ h => GetOutcome.noConfusion h⟩

/-! ### Claim C10 -/

/-- Claim C10: when a name ends in the path separator and the
visibility query resolves it (as it does whenever a live key nested
under it exists), put and delete treat the resolved row of the
differently-named matching key as the name's current row: put appends
an update row named the prefix itself with created = false,
create_revision and old_value copied from that row, and delete appends
a tombstone named the prefix carrying that row's value as old_value;
neither is an exact-key miss, and both return the advanced revision. -/
theorem C10_trailing_sep_resolves (log : Store) (name : String) (v : List Nat)
    (kv : KeyValue) (hs : endsWithSlash name = true)
    (hkv : get log name = some kv)
    (hnone : ∀ r ∈ log, r.name ≠ name) :
    (∃ r ∈ log, kv = toKeyValue r ∧ nameMatches name r.name = true ∧ r.deleted = false
      ∧ r.name ≠ name)
    ∧ kv.key ≠ name
    ∧ put log name v
        = (log ++ [⟨current_revision log + 1, name, false, false, kv.create_revision,
            none, none, some v, kv.value⟩], current_revision log + 1)
    ∧ delete log name
        = (log ++ [⟨current_revision log + 1, name, false, true, 0, none, none, none,
            kv.value⟩], current_revision log + 1) := by
  have htake : list_current log name 1 false = (visKVs log name false).take 1 := by
    rw [list_current, applyLimit, if_pos (by decide : (0 : Int) < 1)]
    rfl
  have hkv2 : ((visKVs log name false).take 1).head? = some kv := by
    rw [← htake]
    exact hkv
  have hmem : kv ∈ visKVs log name false := by
    refine List.take_subset 1 _ ?_
    cases hl : (visKVs log name false).take 1 with
    | nil =>
      rw [hl] at hkv2
      cases hkv2
    | cons x xs =>
      rw [hl] at hkv2
      have hx : x = kv := by
        injection hkv2 with h
      rw [hx]
      exact List.mem_cons_self kv xs
  rw [visKVs, List.mem_map] at hmem
  obtain ⟨r, hr, hre⟩ := hmem
  rw [mem_visRows] at hr
  have hdel : r.deleted = false := by
    rcases hr.2.2.1 with h | h
    · exact h
    · cases h
  have hrname : r.name ≠ name := hnone r hr.1
  have hkey : kv.key = r.name := by rw [← hre]; rfl
  refine ⟨⟨r, hr.1, hre.symm, hr.2.1, hdel, hrname⟩, ?_, ?_, ?_⟩
  · rw [hkey]
    exact hrname
  · rw [put, hkv]
    rfl
  · rw [delete, hkv]
    rfl

/-- Closed witness for C10 on the one-child store: the parent name
resolves to the child row named under it. -/
theorem C10_trailing_sep_resolves_witness :
    (endsWithSlash "/a/" = true
      ∧ get exLogChild "/a/" = some ⟨"/a/b", 1, 1, some [0], none⟩
      ∧ ∀ r ∈ exLogChild, r.name ≠ "/a/")
    ∧ ((∃ r ∈ exLogChild, (⟨"/a/b", 1, 1, some [0], none⟩ : KeyValue) = toKeyValue r
          ∧ nameMatches "/a/" r.name = true ∧ r.deleted = false ∧ r.name ≠ "/a/")
      ∧ (⟨"/a/b", 1, 1, some [0], none⟩ : KeyValue).key ≠ "/a/"
      ∧ put exLogChild "/a/" [1]
          = (exLogChild ++ [⟨current_revision exLogChild + 1, "/a/", false, false,
              (⟨"/a/b", 1, 1, some [0], none⟩ : KeyValue).create_revision, none, none,
              some [1], (⟨"/a/b", 1, 1, some [0], none⟩ : KeyValue).value⟩],
             current_revision exLogChild + 1)
      ∧ delete exLogChild "/a/"
          = (exLogChild ++ [⟨current_revision exLogChild + 1, "/a/", false, true, 0,
              none, none, none, (⟨"/a/b", 1, 1, some [0], none⟩ : KeyValue).value⟩],
             current_revision exLogChild + 1)) :=
  ⟨⟨by decide, by decide, by decide⟩,
    C10_trailing_sep_resolves exLogChild "/a/" [1] ⟨"/a/b", 1, 1, some [0], none⟩
      (by decide) (by decide) (by decide)⟩

end Sumkin
